import Mathlib

/-!
Verification of the tree memory arena from `src/rust-book/src/tree_memory_arena/`
(`arena.rs`, `mt_arena.rs`).

The embedding is shallow:
* `Node T` mirrors `Node<T>` (fields `id`, `parent`, `children`, `payload`).
* `Arena T` mirrors `Arena<T>`: the `HashMap<usize, NodeRef<T>>` behind the
  `RwLock` is modelled as an association list `List (Nat × Node T)` (iteration
  order of the hash map is unspecified, the list order models one such order),
  and the `AtomicUsize` counter as a `Nat`.
* Each public method of `Arena` / `MTArena` is translated function by function.
  Methods that mutate `self` return the new `Arena` explicitly.  The fatal
  failure in `add_new_node` ("Parent node doesn't exist.") is modelled by the
  `Option Nat` result being `none`, paired with the state at the moment of the
  failure (the check precedes every mutation in the source).
* The `while let Some(node_id) = stack.pop()` loop of `tree_walk_dfs` is
  modelled with explicit fuel (`dfsAux`): the Rust loop can diverge on cyclic
  child references, which no reachable arena state exhibits; `dfs_fuel` is
  proved sufficient on well-formed states.
-/

namespace TreeArena

/-- `Node<T>` from `arena.rs`. -/
structure Node (T : Type) where
  id : Nat
  parent : Option Nat
  children : List Nat
  payload : T
  deriving Repr, DecidableEq

/-- `Arena<T>` from `arena.rs`: the id→node table and the atomic id counter. -/
structure Arena (T : Type) where
  map : List (Nat × Node T)
  atomic_counter : Nat
  deriving Repr, DecidableEq

variable {T : Type}

/-- First-match lookup in the association list, modelling `HashMap::get`. -/
def lookup : List (Nat × Node T) → Nat → Option (Node T)
  | [], _ => none
  | e :: rest, k => if e.1 = k then some e.2 else lookup rest k

/-- `HashMap::insert` restricted to what the arena uses: replace the entry in
place when the key is present, append otherwise. -/
def insertEntry : List (Nat × Node T) → Nat → Node T → List (Nat × Node T)
  | [], k, v => [(k, v)]
  | e :: rest, k, v => if e.1 = k then (k, v) :: rest else e :: insertEntry rest k v

/-- `HashMap::remove` (on a table with distinct keys, dropping every entry with
the key coincides with dropping the one entry). -/
def eraseEntry (m : List (Nat × Node T)) (k : Nat) : List (Nat × Node T) :=
  m.filter (fun e => e.1 ≠ k)

/-- In-place mutation of the node stored under key `k`, modelling taking the
node's `RwLock` write guard and updating it. -/
def updateEntry (m : List (Nat × Node T)) (k : Nat) (f : Node T → Node T) :
    List (Nat × Node T) :=
  m.map (fun e => if e.1 = k then (e.1, f e.2) else e)

/-- `Arena::new`. -/
def Arena.new : Arena T := { map := [], atomic_counter := 0 }

/-- `Arena::node_exists`. -/
def node_exists (s : Arena T) (node_id : Nat) : Bool :=
  (lookup s.map node_id).isSome

/-- `Arena::get_node_arc` (the clone of the `Arc` is the node value itself in
the functional model). -/
def get_node_arc (s : Arena T) (node_id : Nat) : Option (Node T) :=
  if ¬ node_exists s node_id then none
  else lookup s.map node_id

/-- `Arena::get_parent_of`. -/
def get_parent_of (s : Arena T) (node_id : Nat) : Option Nat :=
  if ¬ node_exists s node_id then none
  else
    match get_node_arc s node_id with
    | none => none
    | some node_to_lookup => node_to_lookup.parent

/-- `Arena::get_children_of`. -/
def get_children_of (s : Arena T) (node_id : Nat) : Option (List Nat) :=
  if ¬ node_exists s node_id then none
  else
    match get_node_arc s node_id with
    | none => none
    | some node_to_lookup => some node_to_lookup.children

/-- `Arena::has_parent`. -/
def has_parent (s : Arena T) (node_id : Nat) : Bool :=
  if node_exists s node_id then
    match get_parent_of s node_id with
    | some parent_id => node_exists s parent_id
    | none => false
  else false

/-- `Arena::filter_all_nodes_by`: the predicate sees each id and a copy of the
payload; ids are collected in table-iteration order. -/
def filter_all_nodes_by (s : Arena T) (filter_fn : Nat → T → Bool) :
    Option (List Nat) :=
  let filtered_map := (s.map.filter (fun e => filter_fn e.1 e.2.payload)).map (fun e => e.1)
  match filtered_map.length with
  | 0 => none
  | _ + 1 => some filtered_map

/-- The loop body of `Arena::tree_walk_dfs`, with the stack's top at the list
head.  `stack.extend(node.children)` puts the last child on top, hence
`node.children.reverse ++ stack`.  The `self.get_node_arc(node_id)?` in the
source propagates `None` out of the whole method, modelled by `some none`.
The fuel counts loop iterations; `none` means the fuel ran out (the source
loop diverges on cyclic child references). -/
def dfsAux (s : Arena T) : Nat → List Nat → List Nat → Option (Option (List Nat))
  | _, [], collected_nodes => some (some collected_nodes)
  | 0, _ :: _, _ => none
  | fuel + 1, node_id :: stack, collected_nodes =>
    match get_node_arc s node_id with
    | none => some none
    | some node => dfsAux s fuel (node.children.reverse ++ stack) (collected_nodes ++ [node.id])

/-- Fuel sufficient for every terminating run of the source loop that a
well-formed arena can produce: one iteration per node plus one per child slot. -/
def dfs_fuel (s : Arena T) : Nat :=
  (s.map.map (fun e => e.2.children.length + 1)).sum + 1

/-- `Arena::tree_walk_dfs`. -/
def tree_walk_dfs (s : Arena T) (node_id : Nat) : Option (List Nat) :=
  if ¬ node_exists s node_id then none
  else
    match dfsAux s (dfs_fuel s) [node_id] [] with
    | none => none
    | some none => none
    | some (some collected_nodes) =>
      match collected_nodes.length with
      | 0 => none
      | _ + 1 => some collected_nodes

/-- `Arena::delete_node`; returns the deleted ids together with the new state
(`none` leaves the state unchanged). -/
def delete_node (s : Arena T) (node_id : Nat) : Option (List Nat) × Arena T :=
  if ¬ node_exists s node_id then (none, s)
  else
    match tree_walk_dfs s node_id with
    | none => (none, s)
    | some deletion_list =>
      let map1 : List (Nat × Node T) :=
        if has_parent s node_id then
          match get_parent_of s node_id with
          | some parent_id =>
            updateEntry s.map parent_id (fun parent_node =>
              { parent_node with
                children := parent_node.children.filter (fun child_id => child_id ≠ node_id) })
          | none => s.map
        else s.map
      (some deletion_list,
        { s with map := deletion_list.foldl (fun m id => eraseEntry m id) map1 })

/-- `Arena::generate_uid`: `fetch_add(1)` returns the old value. -/
def generate_uid (s : Arena T) : Nat × Arena T :=
  (s.atomic_counter, { s with atomic_counter := s.atomic_counter + 1 })

/-- `Arena::add_new_node`.  A `none` id models the fatal "Parent node doesn't
exist." failure; the accompanying state is the state at the failure point,
which is the untouched input because the existence check precedes every
mutation in the source. -/
def add_new_node (s : Arena T) (data : T) (parent_id_opt : Option Nat) :
    Option Nat × Arena T :=
  if parent_id_opt.isSome && ! node_exists s (parent_id_opt.getD 0) then (none, s)
  else
    let (new_node_id, s0) := generate_uid s
    let s1 : Arena T :=
      { s0 with
        map := insertEntry s0.map new_node_id
          { id := new_node_id, parent := parent_id_opt, children := [], payload := data } }
    let s2 : Arena T :=
      match parent_id_opt with
      | some parent_id =>
        match get_node_arc s1 parent_id with
        | some _ =>
          { s1 with
            map := updateEntry s1.map parent_id (fun parent_node =>
              { parent_node with children := parent_node.children ++ [new_node_id] }) }
        | none => s1
      | none => s1
    (some new_node_id, s2)

/-- The body of the closure spawned by `MTArena::tree_walk_parallel`
(`mt_arena.rs`): it runs `tree_walk_dfs` under a read lock on the arena and
then calls the walker on each visited id that still resolves, with a copy of
the payload.  The second component records the walker invocations in order. -/
def tree_walk_parallel_body (s : Arena T) (node_id : Nat) :
    Option (List Nat) × List (Nat × T) :=
  let return_value := tree_walk_dfs s node_id
  let walker_calls :=
    match return_value with
    | some result_list =>
      result_list.filterMap (fun uid =>
        (get_node_arc s uid).map (fun node => (uid, node.payload)))
    | none => []
  (return_value, walker_calls)

/-- The children sequence recorded for `node_id`, empty when the id is not in
the table. -/
def children_of (s : Arena T) (node_id : Nat) : List Nat :=
  match lookup s.map node_id with
  | some node => node.children
  | none => []

/-- Recursive description of the LIFO order produced by the explicit-stack
walk of `tree_walk_dfs`: a node is recorded, then its children's subtrees
follow, later-in-sequence children first.  Fueled because its termination on
arbitrary tables is not structural; on well-formed arenas the fuel
`atomic_counter + 1` is proved sufficient. -/
def walkSpecAux (s : Arena T) : Nat → Nat → List Nat
  | 0, _ => []
  | fuel + 1, node_id =>
    node_id :: ((children_of s node_id).reverse.map (walkSpecAux s fuel)).flatten

/-- The LIFO depth-first order of the subtree rooted at `node_id`. -/
def walkSpec (s : Arena T) (node_id : Nat) : List Nat :=
  walkSpecAux s (s.atomic_counter + 1) node_id

/-- `y` is in the subtree rooted at `x`: reachable by repeatedly following
entries of `children` sequences. -/
inductive Reaches (s : Arena T) : Nat → Nat → Prop
  | refl (x : Nat) : Reaches s x x
  | step {x c y : Nat} {n : Node T} :
      lookup s.map x = some n → c ∈ n.children → Reaches s c y → Reaches s x y

/-- `y` is an ancestor of `x` (or `x` itself): reachable by repeatedly
following `parent` fields. -/
inductive UpChain (s : Arena T) : Nat → Nat → Prop
  | refl (x : Nat) : UpChain s x x
  | step {x p y : Nat} {n : Node T} :
      lookup s.map x = some n → n.parent = some p → UpChain s p y → UpChain s x y

/-- Well-formedness of an arena state.  All conjuncts are bounded by the
table, so `WF` is decidable on concrete states:
1. table keys are distinct;
2. each node records the key it is stored under as its `id`;
3. every key is below the id counter;
4. children sequences contain no duplicates;
5. every child reference resolves to a live node whose `parent` is the
   referencing key;
6. a recorded parent has a smaller id than the node and resolves to a live
   node whose `children` contain the node's key. -/
def WF (s : Arena T) : Prop :=
  (s.map.map (fun e => e.1)).Nodup ∧
  (∀ e ∈ s.map, e.2.id = e.1) ∧
  (∀ e ∈ s.map, e.1 < s.atomic_counter) ∧
  (∀ e ∈ s.map, e.2.children.Nodup) ∧
  (∀ e ∈ s.map, ∀ c ∈ e.2.children,
    (lookup s.map c).map Node.parent = some (some e.1)) ∧
  (∀ e ∈ s.map, ∀ p ∈ e.2.parent,
    p < e.1 ∧ ∃ l ∈ (lookup s.map p).map Node.children, e.1 ∈ l)

/-- Arena states reachable from `Arena::new` by `add_new_node` (successful or
fatally failed) and `delete_node` calls. -/
inductive Reachable : Arena T → Prop
  | base : Reachable Arena.new
  | add (s : Arena T) (d : T) (po : Option Nat) :
      Reachable s → Reachable (add_new_node s d po).2
  | del (s : Arena T) (id : Nat) :
      Reachable s → Reachable (delete_node s id).2

/-- One client call against the arena. -/
inductive ArenaOp (T : Type) where
  | add (data : T) (parent_id_opt : Option Nat)
  | del (node_id : Nat)

/-- Run a list of calls from a starting state, collecting the identifiers the
successful `add_new_node` calls hand back, in call order. -/
def run_ops : Arena T → List (ArenaOp T) → Arena T × List Nat
  | s, [] => (s, [])
  | s, ArenaOp.add d po :: ops =>
    let r := add_new_node s d po
    let rest := run_ops r.2 ops
    (rest.1,
      (match r.1 with
       | some uid => [uid]
       | none => []) ++ rest.2)
  | s, ArenaOp.del id :: ops => run_ops (delete_node s id).2 ops

/-- The spec's example tree: payload 10 at the root (id 0) with children
A (id 1, payload 11) and B (id 2, payload 12); A has children A1 (id 3,
payload 13) and A2 (id 4, payload 14). -/
def exArena : Arena Nat :=
  (add_new_node
    ((add_new_node
      ((add_new_node
        ((add_new_node
          ((add_new_node (Arena.new) 10 none).2) 11 (some 0)).2) 12 (some 0)).2)
        13 (some 1)).2) 14 (some 1)).2

/-- Three root nodes with payloads 1, 2, 3 (ids 0, 1, 2). -/
def arena3 : Arena Nat :=
  (add_new_node ((add_new_node ((add_new_node (Arena.new) 1 none).2) 2 none).2) 3 none).2

/-- A table whose only node (id 0) records child 1, which is absent from the
table: the dangling-child situation `tree_walk_dfs` documents as "skip to the
next item in the stack". -/
def danglingArena : Arena Nat :=
  { map := [(0, { id := 0, parent := none, children := [1], payload := 0 })],
    atomic_counter := 2 }

section BasicLemmas

theorem lookup_mem {m : List (Nat × Node T)} {k : Nat} {n : Node T}
    (h : lookup m k = some n) : (k, n) ∈ m := by
  induction m with
  | nil => simp [lookup] at h
  | cons e rest ih =>
    simp only [lookup] at h
    by_cases he : e.1 = k
    · simp [he] at h
      subst h
      have : (k, e.2) = e := by rw [← he]
      rw [this]
      exact List.mem_cons_self e rest
    · simp [he] at h
      exact List.mem_cons_of_mem _ (ih h)

theorem lookup_eq_none {m : List (Nat × Node T)} {k : Nat}
    (h : k ∉ m.map (fun e => e.1)) : lookup m k = none := by
  induction m with
  | nil => rfl
  | cons e rest ih =>
    simp only [List.map_cons, List.mem_cons] at h
    push_neg at h
    have hne : ¬ e.1 = k := fun heq => h.1 heq.symm
    simp [lookup, hne, ih h.2]

theorem lookup_isSome_mem {m : List (Nat × Node T)} {k : Nat}
    (h : (lookup m k).isSome) : k ∈ m.map (fun e => e.1) := by
  by_contra hk
  rw [lookup_eq_none hk] at h
  simp at h

theorem mem_lookup {m : List (Nat × Node T)} {k : Nat} {n : Node T}
    (hnd : (m.map (fun e => e.1)).Nodup) (h : (k, n) ∈ m) : lookup m k = some n := by
  induction m with
  | nil => simp at h
  | cons e rest ih =>
    simp only [List.map_cons, List.nodup_cons] at hnd
    rcases List.mem_cons.mp h with h | h
    · rw [← h]
      simp [lookup]
    · have hk : k ∈ rest.map (fun e => e.1) :=
        List.mem_map.mpr ⟨(k, n), h, rfl⟩
      have : e.1 ≠ k := fun heq => hnd.1 (heq ▸ hk)
      simp [lookup, this, ih hnd.2 h]

theorem WF.keys_nodup {s : Arena T} (h : WF s) : (s.map.map (fun e => e.1)).Nodup :=
  h.1

theorem WF.id_eq {s : Arena T} {k : Nat} {n : Node T} (h : WF s)
    (hk : lookup s.map k = some n) : n.id = k :=
  h.2.1 (k, n) (lookup_mem hk)

theorem WF.lt_counter {s : Arena T} {k : Nat} {n : Node T} (h : WF s)
    (hk : lookup s.map k = some n) : k < s.atomic_counter :=
  h.2.2.1 (k, n) (lookup_mem hk)

theorem WF.children_nodup {s : Arena T} {k : Nat} {n : Node T} (h : WF s)
    (hk : lookup s.map k = some n) : n.children.Nodup :=
  h.2.2.2.1 (k, n) (lookup_mem hk)

theorem WF.child_resolves {s : Arena T} {k c : Nat} {n : Node T} (h : WF s)
    (hk : lookup s.map k = some n) (hc : c ∈ n.children) :
    ∃ m, lookup s.map c = some m ∧ m.parent = some k := by
  have := h.2.2.2.2.1 (k, n) (lookup_mem hk) c hc
  cases hm : lookup s.map c with
  | none => rw [hm] at this; simp at this
  | some m =>
    rw [hm] at this
    simp only [Option.map_some'] at this
    exact ⟨m, rfl, by injection this⟩

theorem WF.parent_resolves {s : Arena T} {k p : Nat} {n : Node T} (h : WF s)
    (hk : lookup s.map k = some n) (hp : n.parent = some p) :
    p < k ∧ ∃ m, lookup s.map p = some m ∧ k ∈ m.children := by
  have := h.2.2.2.2.2 (k, n) (lookup_mem hk) p (by simp [hp])
  refine ⟨this.1, ?_⟩
  rcases this.2 with ⟨l, hl, hmem⟩
  cases hm : lookup s.map p with
  | none => rw [hm] at hl; simp at hl
  | some m =>
    rw [hm] at hl
    simp only [Option.map_some', Option.mem_def, Option.some.injEq] at hl
    exact ⟨m, rfl, hl ▸ hmem⟩

theorem WF.child_gt {s : Arena T} {k c : Nat} {n : Node T} (h : WF s)
    (hk : lookup s.map k = some n) (hc : c ∈ n.children) : k < c := by
  rcases h.child_resolves hk hc with ⟨m, hm, hpar⟩
  exact ((h.parent_resolves hm hpar).1 : k < c)

end BasicLemmas

section MapLemmas

theorem lookup_eraseEntry (m : List (Nat × Node T)) (k x : Nat) :
    lookup (eraseEntry m k) x = if x = k then none else lookup m x := by
  induction m with
  | nil => simp [eraseEntry, lookup]
  | cons e rest ih =>
    by_cases hek : e.1 = k
    · have : eraseEntry (e :: rest) k = eraseEntry rest k := by
        simp [eraseEntry, hek]
      rw [this, ih]
      by_cases hxk : x = k
      · simp [hxk]
      · have : ¬ e.1 = x := fun h => hxk (by rw [← h, hek])
        simp [hxk, lookup, this]
    · have : eraseEntry (e :: rest) k = e :: eraseEntry rest k := by
        simp [eraseEntry, hek]
      rw [this]
      by_cases hex : e.1 = x
      · have hxk : ¬ x = k := fun h => hek (by rw [hex, h])
        simp [lookup, hex, hxk]
      · simp [lookup, hex, ih]

theorem keys_eraseEntry (m : List (Nat × Node T)) (k : Nat) :
    (eraseEntry m k).map (fun e => e.1) =
      (m.map (fun e => e.1)).filter (fun x => x ≠ k) := by
  induction m with
  | nil => rfl
  | cons e rest ih =>
    by_cases hek : e.1 = k <;> simp [eraseEntry, hek, List.filter] at ih ⊢ <;>
      simpa [eraseEntry] using ih

theorem lookup_updateEntry (m : List (Nat × Node T)) (k : Nat) (f : Node T → Node T)
    (x : Nat) :
    lookup (updateEntry m k f) x =
      if x = k then (lookup m k).map f else lookup m x := by
  induction m with
  | nil => simp [updateEntry, lookup]
  | cons e rest ih =>
    by_cases hek : e.1 = k
    · have : updateEntry (e :: rest) k f = (e.1, f e.2) :: updateEntry rest k f := by
        simp [updateEntry, hek]
      rw [this]
      by_cases hxk : x = k
      · simp [lookup, hxk, ← hek]
      · have : ¬ e.1 = x := fun h => hxk (by rw [← h, hek])
        simp [lookup, this, hek ▸ this, ih, hxk]
    · have : updateEntry (e :: rest) k f = e :: updateEntry rest k f := by
        simp [updateEntry, hek]
      rw [this]
      by_cases hex : e.1 = x
      · have hxk : ¬ x = k := fun h => hek (by rw [hex, h])
        simp [lookup, hex, hxk]
      · simp [lookup, hex, ih, hek]

theorem keys_updateEntry (m : List (Nat × Node T)) (k : Nat) (f : Node T → Node T) :
    (updateEntry m k f).map (fun e => e.1) = m.map (fun e => e.1) := by
  induction m with
  | nil => rfl
  | cons e rest ih =>
    by_cases hek : e.1 = k <;> simp [updateEntry, hek] at ih ⊢ <;>
      simpa [updateEntry] using ih

theorem lookup_insertEntry (m : List (Nat × Node T)) (k : Nat) (v : Node T) (x : Nat) :
    lookup (insertEntry m k v) x = if x = k then some v else lookup m x := by
  induction m with
  | nil => by_cases hxk : x = k <;> simp [insertEntry, lookup, hxk, Ne.symm]
  | cons e rest ih =>
    by_cases hek : e.1 = k
    · have : insertEntry (e :: rest) k v = (k, v) :: rest := by
        simp [insertEntry, hek]
      rw [this]
      by_cases hxk : x = k
      · simp [lookup, hxk]
      · have h1 : ¬ (k : Nat) = x := fun h => hxk h.symm
        have h2 : ¬ e.1 = x := fun h => hxk (by rw [← h, hek])
        simp [lookup, h1, h2, hxk]
    · have : insertEntry (e :: rest) k v = e :: insertEntry rest k v := by
        simp [insertEntry, hek]
      rw [this]
      by_cases hex : e.1 = x
      · have hxk : ¬ x = k := fun h => hek (by rw [hex, h])
        simp [lookup, hex, hxk]
      · simp [lookup, hex, ih]

theorem keys_insertEntry_fresh (m : List (Nat × Node T)) (k : Nat) (v : Node T)
    (h : k ∉ m.map (fun e => e.1)) :
    (insertEntry m k v).map (fun e => e.1) = m.map (fun e => e.1) ++ [k] := by
  induction m with
  | nil => rfl
  | cons e rest ih =>
    simp only [List.map_cons, List.mem_cons] at h
    push_neg at h
    have hek : ¬ e.1 = k := fun heq => h.1 heq.symm
    simp [insertEntry, hek, ih h.2]

theorem lookup_removeAll (L : List Nat) (m : List (Nat × Node T)) (x : Nat) :
    lookup (L.foldl (fun acc id => eraseEntry acc id) m) x =
      if x ∈ L then none else lookup m x := by
  induction L generalizing m with
  | nil => simp
  | cons a L ih =>
    simp only [List.foldl_cons, ih, lookup_eraseEntry, List.mem_cons]
    by_cases hxL : x ∈ L
    · simp [hxL]
    · by_cases hxa : x = a <;> simp [hxa, hxL]

theorem keys_removeAll_sublist (L : List Nat) (m : List (Nat × Node T)) :
    ((L.foldl (fun acc id => eraseEntry acc id) m).map (fun e => e.1)).Sublist
      (m.map (fun e => e.1)) := by
  induction L generalizing m with
  | nil => simp
  | cons a L ih =>
    refine (ih (eraseEntry m a)).trans ?_
    rw [keys_eraseEntry]
    exact List.filter_sublist _

end MapLemmas

section ChainLemmas

theorem UpChain.trans_chain {s : Arena T} {x y z : Nat} (h1 : UpChain s x y)
    (h2 : UpChain s y z) : UpChain s x z := by
  induction h1 with
  | refl => exact h2
  | step hl hp _ ih => exact UpChain.step hl hp (ih h2)

theorem UpChain.le {s : Arena T} (h : WF s) {x y : Nat} (hc : UpChain s x y) :
    y ≤ x := by
  induction hc with
  | refl => exact le_refl _
  | step hl hp _ ih =>
    exact le_trans ih (le_of_lt (h.parent_resolves hl hp).1)

theorem UpChain.linear {s : Arena T} {x a b : Nat} (h1 : UpChain s x a)
    (h2 : UpChain s x b) : UpChain s a b ∨ UpChain s b a := by
  induction h1 generalizing b with
  | refl => exact Or.inl h2
  | step hl hp hr ih =>
    cases h2 with
    | refl => exact Or.inr (UpChain.step hl hp hr)
    | step hl2 hp2 hr2 =>
      rw [hl] at hl2
      injection hl2 with he
      subst he
      rw [hp] at hp2
      injection hp2 with he2
      subst he2
      exact ih hr2

theorem Reaches.trans_reaches {s : Arena T} {x y z : Nat} (h1 : Reaches s x y) :
    Reaches s y z → Reaches s x z := by
  induction h1 with
  | refl => exact id
  | step hl hc _ ih => intro h2; exact Reaches.step hl hc (ih h2)

theorem Reaches.snoc {s : Arena T} {k p c : Nat} {m : Node T}
    (h : Reaches s k p) (hl : lookup s.map p = some m) (hc : c ∈ m.children) :
    Reaches s k c :=
  h.trans_reaches (Reaches.step hl hc (Reaches.refl c))

theorem reaches_live {s : Arena T} (h : WF s) {k x : Nat} (hr : Reaches s k x) :
    (∃ n, lookup s.map k = some n) → ∃ m, lookup s.map x = some m := by
  induction hr with
  | refl => exact id
  | step hl hc _ ih =>
    intro _
    rcases h.child_resolves hl hc with ⟨m, hm, -⟩
    exact ih ⟨m, hm⟩

theorem reaches_upchain {s : Arena T} (h : WF s) {k x : Nat}
    (hr : Reaches s k x) : UpChain s x k := by
  induction hr with
  | refl => exact UpChain.refl _
  | step hl hc _ ih =>
    rcases h.child_resolves hl hc with ⟨m, hm, hpar⟩
    exact ih.trans_chain (UpChain.step hm hpar (UpChain.refl _))

theorem upchain_reaches {s : Arena T} (h : WF s) {k x : Nat}
    (hup : UpChain s x k) : (∃ m, lookup s.map x = some m) → Reaches s k x := by
  induction hup with
  | refl => intro _; exact Reaches.refl _
  | step hl hp _ ih =>
    intro _
    rcases h.parent_resolves hl hp with ⟨-, q, hq, hmem⟩
    exact (ih ⟨q, hq⟩).snoc hq hmem

theorem reaches_iff_upchain {s : Arena T} (h : WF s) {k x : Nat} {n : Node T}
    (hk : lookup s.map k = some n) :
    Reaches s k x ↔ (∃ m, lookup s.map x = some m) ∧ UpChain s x k := by
  constructor
  · intro hr
    exact ⟨reaches_live h hr ⟨n, hk⟩, reaches_upchain h hr⟩
  · rintro ⟨hlive, hup⟩
    exact upchain_reaches h hup hlive

end ChainLemmas

section WalkSpecLemmas

theorem walkSpecAux_fuel_eq {s : Arena T} (h : WF s) :
    ∀ N k n, lookup s.map k = some n → s.atomic_counter - k = N →
    ∀ f1 f2, N ≤ f1 + 1 → N ≤ f2 + 1 →
    walkSpecAux s (f1 + 1) k = walkSpecAux s (f2 + 1) k := by
  intro N
  induction N using Nat.strong_induction_on with
  | _ N ih =>
    intro k n hk hN f1 f2 h1 h2
    simp only [walkSpecAux, children_of, hk]
    congr 1
    congr 1
    apply List.map_congr_left
    intro c hc
    have hc' : c ∈ n.children := List.mem_reverse.mp hc
    rcases h.child_resolves hk hc' with ⟨m, hm, -⟩
    have hck : k < c := h.child_gt hk hc'
    have hcc : c < s.atomic_counter := h.lt_counter hm
    have hkc : k < s.atomic_counter := h.lt_counter hk
    have hlt : s.atomic_counter - c < N := by omega
    obtain ⟨g1, rfl⟩ : ∃ g, f1 = g + 1 := ⟨f1 - 1, by omega⟩
    obtain ⟨g2, rfl⟩ : ∃ g, f2 = g + 1 := ⟨f2 - 1, by omega⟩
    exact ih _ hlt c m hm rfl g1 g2 (by omega) (by omega)

theorem walkSpec_unfold {s : Arena T} (h : WF s) {k : Nat} {n : Node T}
    (hk : lookup s.map k = some n) :
    walkSpec s k = k :: (n.children.reverse.map (walkSpec s)).flatten := by
  have hkc : k < s.atomic_counter := h.lt_counter hk
  show walkSpecAux s (s.atomic_counter + 1) k = _
  simp only [walkSpecAux, children_of, hk]
  congr 1
  congr 1
  apply List.map_congr_left
  intro c hc
  have hc' : c ∈ n.children := List.mem_reverse.mp hc
  rcases h.child_resolves hk hc' with ⟨m, hm, -⟩
  have hcc : c < s.atomic_counter := h.lt_counter hm
  obtain ⟨g, hg⟩ : ∃ g, s.atomic_counter = g + 1 := ⟨s.atomic_counter - 1, by omega⟩
  show walkSpecAux s s.atomic_counter c = walkSpecAux s (s.atomic_counter + 1) c
  rw [hg]
  exact walkSpecAux_fuel_eq h (s.atomic_counter - c) c m hm rfl g (g + 1)
    (by omega) (by omega)

theorem walkSpec_mem {s : Arena T} (h : WF s) :
    ∀ N k n, lookup s.map k = some n → s.atomic_counter - k = N →
    ∀ x, x ∈ walkSpec s k ↔ Reaches s k x := by
  intro N
  induction N using Nat.strong_induction_on with
  | _ N ih =>
    intro k n hk hN x
    rw [walkSpec_unfold h hk]
    constructor
    · intro hx
      rcases List.mem_cons.mp hx with rfl | hx
      · exact Reaches.refl _
      · rw [List.mem_flatten] at hx
        rcases hx with ⟨l, hl, hxl⟩
        rw [List.mem_map] at hl
        rcases hl with ⟨c, hc, rfl⟩
        have hc' : c ∈ n.children := List.mem_reverse.mp hc
        rcases h.child_resolves hk hc' with ⟨m, hm, -⟩
        have hck : k < c := h.child_gt hk hc'
        have hcc : c < s.atomic_counter := h.lt_counter hm
        have hkc : k < s.atomic_counter := h.lt_counter hk
        have hr := (ih (s.atomic_counter - c) (by omega) c m hm rfl x).mp hxl
        exact Reaches.step hk hc' hr
    · intro hr
      cases hr with
      | refl => exact List.mem_cons_self _ _
      | @step _ c _ nn hl hc hr' =>
        rw [hk] at hl
        injection hl with he
        subst he
        refine List.mem_cons_of_mem _ (List.mem_flatten.mpr ?_)
        rcases h.child_resolves hk hc with ⟨m, hm, -⟩
        have hck : k < c := h.child_gt hk hc
        have hcc : c < s.atomic_counter := h.lt_counter hm
        have hkc : k < s.atomic_counter := h.lt_counter hk
        refine ⟨walkSpec s c, List.mem_map.mpr ⟨c, List.mem_reverse.mpr hc, rfl⟩, ?_⟩
        exact (ih (s.atomic_counter - c) (by omega) c m hm rfl x).mpr hr'

theorem walkSpec_mem_iff {s : Arena T} (h : WF s) {k x : Nat} {n : Node T}
    (hk : lookup s.map k = some n) : x ∈ walkSpec s k ↔ Reaches s k x :=
  walkSpec_mem h (s.atomic_counter - k) k n hk rfl x

theorem walkSpec_mem_le {s : Arena T} (h : WF s) {k x : Nat} {n : Node T}
    (hk : lookup s.map k = some n) (hx : x ∈ walkSpec s k) : k ≤ x :=
  (reaches_upchain h ((walkSpec_mem_iff h hk).mp hx)).le h

theorem walkSpec_mem_live {s : Arena T} (h : WF s) {k x : Nat} {n : Node T}
    (hk : lookup s.map k = some n) (hx : x ∈ walkSpec s k) :
    ∃ m, lookup s.map x = some m :=
  reaches_live h ((walkSpec_mem_iff h hk).mp hx) ⟨n, hk⟩

theorem walkSpec_nodup {s : Arena T} (h : WF s) :
    ∀ N k n, lookup s.map k = some n → s.atomic_counter - k = N →
    (walkSpec s k).Nodup := by
  intro N
  induction N using Nat.strong_induction_on with
  | _ N ih =>
    intro k n hk hN
    rw [walkSpec_unfold h hk]
    rw [List.nodup_cons]
    constructor
    · intro hx
      rw [List.mem_flatten] at hx
      rcases hx with ⟨l, hl, hxl⟩
      rw [List.mem_map] at hl
      rcases hl with ⟨c, hc, rfl⟩
      have hc' : c ∈ n.children := List.mem_reverse.mp hc
      rcases h.child_resolves hk hc' with ⟨m, hm, -⟩
      have hck : k < c := h.child_gt hk hc'
      have hle : c ≤ k := walkSpec_mem_le h hm hxl
      omega
    · rw [List.nodup_flatten]
      constructor
      · intro l hl
        rw [List.mem_map] at hl
        rcases hl with ⟨c, hc, rfl⟩
        have hc' : c ∈ n.children := List.mem_reverse.mp hc
        rcases h.child_resolves hk hc' with ⟨m, hm, -⟩
        have hck : k < c := h.child_gt hk hc'
        have hcc : c < s.atomic_counter := h.lt_counter hm
        have hkc : k < s.atomic_counter := h.lt_counter hk
        exact ih (s.atomic_counter - c) (by omega) c m hm rfl
      · have key : ∀ a b, a ∈ n.children → b ∈ n.children → a ≠ b →
            UpChain s a b → False := by
          intro a b ha hb hab hup
          cases hup with
          | refl => exact hab rfl
          | step hl hp hr =>
            rcases h.child_resolves hk ha with ⟨ma, hma, hpar⟩
            rw [hma] at hl
            injection hl with he
            subst he
            rw [hpar] at hp
            injection hp with he2
            subst he2
            have hbk : b ≤ k := hr.le h
            have hkb : k < b := h.child_gt hk hb
            omega
        rw [List.pairwise_map]
        have hnd : n.children.reverse.Pairwise (fun a b => a ≠ b) :=
          List.nodup_reverse.mpr (h.children_nodup hk)
        refine hnd.imp_of_mem ?_
        intro a b ha hb hab
        have ha' : a ∈ n.children := List.mem_reverse.mp ha
        have hb' : b ∈ n.children := List.mem_reverse.mp hb
        rcases h.child_resolves hk ha' with ⟨ma, hma, -⟩
        rcases h.child_resolves hk hb' with ⟨mb, hmb, -⟩
        intro x hxa hxb
        have hra := (walkSpec_mem_iff h hma).mp hxa
        have hrb := (walkSpec_mem_iff h hmb).mp hxb
        have hua := reaches_upchain h hra
        have hub := reaches_upchain h hrb
        rcases hua.linear hub with hl | hl
        · exact key a b ha' hb' hab hl
        · exact key b a hb' ha' (Ne.symm hab) hl

theorem walkSpec_nodup' {s : Arena T} (h : WF s) {k : Nat} {n : Node T}
    (hk : lookup s.map k = some n) : (walkSpec s k).Nodup :=
  walkSpec_nodup h (s.atomic_counter - k) k n hk rfl

end WalkSpecLemmas

section DfsRunLemmas

theorem dfsAux_run {s : Arena T} (h : WF s) :
    ∀ W cs, (cs.map (fun c => (walkSpec s c).length)).sum = W →
    (∀ c ∈ cs, ∃ m, lookup s.map c = some m) →
    ∀ fuel, W ≤ fuel → ∀ acc,
    dfsAux s fuel cs acc = some (some (acc ++ (cs.map (walkSpec s)).flatten)) := by
  intro W
  induction W using Nat.strong_induction_on with
  | _ W ih =>
    intro cs hsum hlive fuel hfuel acc
    match cs with
    | [] => simp [dfsAux]
    | c :: cs' =>
      rcases hlive c (List.mem_cons_self _ _) with ⟨m, hm⟩
      have hunfold := walkSpec_unfold h hm
      have hpos : 0 < (walkSpec s c).length := by rw [hunfold]; simp
      have hsum' : (walkSpec s c).length + ((cs'.map (fun d => (walkSpec s d).length)).sum) = W := by
        simpa using hsum
      obtain ⟨g, rfl⟩ : ∃ g, fuel = g + 1 := ⟨fuel - 1, by omega⟩
      have hex : node_exists s c = true := by simp [node_exists, hm]
      have harc : get_node_arc s c = some m := by simp [get_node_arc, hex, hm]
      simp only [dfsAux, harc]
      have hid : m.id = c := h.id_eq hm
      rw [hid]
      have hlen : (walkSpec s c).length =
          ((m.children.reverse.map (fun d => (walkSpec s d).length)).sum) + 1 := by
        rw [hunfold]
        simp only [List.length_cons, List.length_flatten, List.map_map]
        rfl
      have hsum2 : ((m.children.reverse ++ cs').map (fun d => (walkSpec s d).length)).sum
          = W - 1 := by
        rw [List.map_append, List.sum_append]
        omega
      have hlive2 : ∀ d ∈ m.children.reverse ++ cs', ∃ mm, lookup s.map d = some mm := by
        intro d hd
        rcases List.mem_append.mp hd with hd | hd
        · rcases h.child_resolves hm (List.mem_reverse.mp hd) with ⟨mm, hmm, -⟩
          exact ⟨mm, hmm⟩
        · exact hlive d (List.mem_cons_of_mem _ hd)
      rw [ih (W - 1) (by omega) _ hsum2 hlive2 g (by omega) (acc ++ [c])]
      congr 2
      rw [List.map_cons, List.flatten_cons, hunfold]
      simp [List.map_append, List.flatten_append]

theorem nodup_length_le {l : List Nat} (l' : List Nat) (hnd : l.Nodup)
    (hsub : ∀ x ∈ l, x ∈ l') : l.length ≤ l'.length := by
  calc l.length = l.toFinset.card := (List.toFinset_card_of_nodup hnd).symm
    _ ≤ l'.toFinset.card :=
        Finset.card_le_card (fun x hx =>
          List.mem_toFinset.mpr (hsub x (List.mem_toFinset.mp hx)))
    _ ≤ l'.length := l'.toFinset_card_le

theorem length_le_sum_weight (m : List (Nat × Node T)) :
    m.length ≤ (m.map (fun e => e.2.children.length + 1)).sum := by
  induction m with
  | nil => simp
  | cons e rest ih => simp only [List.map_cons, List.sum_cons, List.length_cons]; omega

theorem walkSpec_length_le {s : Arena T} (h : WF s) {k : Nat} {n : Node T}
    (hk : lookup s.map k = some n) : (walkSpec s k).length ≤ s.map.length := by
  have := nodup_length_le (s.map.map (fun e => e.1)) (walkSpec_nodup' h hk)
    (fun x hx => by
      rcases walkSpec_mem_live h hk hx with ⟨m, hm⟩
      exact lookup_isSome_mem (by simp [hm]))
  simpa using this

/-- On a well-formed arena, the iterative explicit-stack walk of the source
computes exactly the recursive LIFO order `walkSpec`. -/
theorem tree_walk_dfs_eq_walkSpec {s : Arena T} (h : WF s) {k : Nat} {n : Node T}
    (hk : lookup s.map k = some n) : tree_walk_dfs s k = some (walkSpec s k) := by
  have hex : node_exists s k = true := by simp [node_exists, hk]
  have hfuel : (walkSpec s k).length ≤ dfs_fuel s := by
    have h1 := walkSpec_length_le h hk
    have h2 := length_le_sum_weight s.map
    unfold dfs_fuel
    omega
  have hrun := dfsAux_run h (walkSpec s k).length [k] (by simp)
    (by intro c hc; simp at hc; subst hc; exact ⟨n, hk⟩) (dfs_fuel s) hfuel []
  simp only [tree_walk_dfs, hex, not_true_eq_false, if_false, hrun]
  obtain ⟨t, ht⟩ : ∃ t, walkSpec s k = k :: t := ⟨_, walkSpec_unfold h hk⟩
  simp [ht]

end DfsRunLemmas

section QueryLemmas

theorem node_exists_true {s : Arena T} {k : Nat} {n : Node T}
    (hk : lookup s.map k = some n) : node_exists s k = true := by
  simp [node_exists, hk]

theorem get_node_arc_eq {s : Arena T} {k : Nat} {n : Node T}
    (hk : lookup s.map k = some n) : get_node_arc s k = some n := by
  simp [get_node_arc, node_exists, hk]

theorem get_parent_of_eq {s : Arena T} {k : Nat} {n : Node T}
    (hk : lookup s.map k = some n) : get_parent_of s k = n.parent := by
  simp [get_parent_of, node_exists, hk, get_node_arc_eq hk]

theorem get_children_of_eq {s : Arena T} {k : Nat} {n : Node T}
    (hk : lookup s.map k = some n) : get_children_of s k = some n.children := by
  simp [get_children_of, node_exists, hk, get_node_arc_eq hk]

theorem has_parent_eq {s : Arena T} (h : WF s) {k : Nat} {n : Node T}
    (hk : lookup s.map k = some n) : has_parent s k = n.parent.isSome := by
  cases hp : n.parent with
  | none => simp [has_parent, node_exists_true hk, get_parent_of_eq hk, hp]
  | some p =>
    rcases h.parent_resolves hk hp with ⟨-, m, hm, -⟩
    simp [has_parent, node_exists_true hk, get_parent_of_eq hk, hp,
      node_exists_true hm]

end QueryLemmas

section SubtreeLemmas

theorem walkSpec_self_mem {s : Arena T} (h : WF s) {k : Nat} {n : Node T}
    (hk : lookup s.map k = some n) : k ∈ walkSpec s k := by
  rw [walkSpec_unfold h hk]
  exact List.mem_cons_self _ _

theorem mem_walkSpec_iff_upchain {s : Arena T} (h : WF s) {k x : Nat} {n : Node T}
    (hk : lookup s.map k = some n) :
    x ∈ walkSpec s k ↔ (∃ m, lookup s.map x = some m) ∧ UpChain s x k :=
  (walkSpec_mem_iff h hk).trans (reaches_iff_upchain h hk)

/-- A live node outside the deleted subtree cannot have its parent inside it. -/
theorem parent_notin_subtree {s : Arena T} (h : WF s) {id x p : Nat}
    {n m : Node T} (hk : lookup s.map id = some n)
    (hm : lookup s.map x = some m) (hx : x ∉ walkSpec s id)
    (hp : m.parent = some p) : p ∉ walkSpec s id := by
  intro hpL
  rcases (mem_walkSpec_iff_upchain h hk).mp hpL with ⟨-, hup⟩
  exact hx ((mem_walkSpec_iff_upchain h hk).mpr
    ⟨⟨m, hm⟩, UpChain.step hm hp hup⟩)

/-- A child reference of a live node outside the deleted subtree points inside
the subtree only when it is the deleted root itself. -/
theorem child_in_subtree_eq_root {s : Arena T} (h : WF s) {id x c : Nat}
    {n m : Node T} (hk : lookup s.map id = some n)
    (hm : lookup s.map x = some m) (hx : x ∉ walkSpec s id)
    (hc : c ∈ m.children) (hcL : c ∈ walkSpec s id) : c = id := by
  rcases (mem_walkSpec_iff_upchain h hk).mp hcL with ⟨-, hup⟩
  cases hup with
  | refl => rfl
  | step hl hp hr =>
    rcases h.child_resolves hm hc with ⟨mc, hmc, hpar⟩
    rw [hmc] at hl
    injection hl with he
    subst he
    rw [hpar] at hp
    injection hp with he2
    subst he2
    exact absurd ((mem_walkSpec_iff_upchain h hk).mpr ⟨⟨m, hm⟩, hr⟩) hx

/-- The parent of the deleted root is never inside the deleted subtree. -/
theorem root_parent_notin_subtree {s : Arena T} (h : WF s) {id p : Nat}
    {n : Node T} (hk : lookup s.map id = some n) (hp : n.parent = some p) :
    p ∉ walkSpec s id := by
  intro hpL
  rcases (mem_walkSpec_iff_upchain h hk).mp hpL with ⟨-, hup⟩
  have h1 : id ≤ p := hup.le h
  have h2 : p < id := (h.parent_resolves hk hp).1
  omega

end SubtreeLemmas

section DeleteLemmas

/-- Complete description of the table after `delete_node` on a live id of a
well-formed arena: subtree ids are gone, the parent lost the child reference,
everything else is untouched. -/
theorem delete_node_lookup {s : Arena T} (h : WF s) {id : Nat} {n : Node T}
    (hk : lookup s.map id = some n) (x : Nat) :
    lookup (delete_node s id).2.map x =
      if x ∈ walkSpec s id then none
      else
        match n.parent with
        | some p =>
          if x = p then
            (lookup s.map p).map (fun m =>
              { m with children := m.children.filter (fun child_id => child_id ≠ id) })
          else lookup s.map x
        | none => lookup s.map x := by
  have hdfs := tree_walk_dfs_eq_walkSpec h hk
  simp only [delete_node, node_exists_true hk, not_true_eq_false, if_false, hdfs]
  rw [lookup_removeAll]
  by_cases hxL : x ∈ walkSpec s id
  · simp [hxL]
  · simp only [hxL, if_false]
    rw [has_parent_eq h hk, get_parent_of_eq hk]
    cases hp : n.parent with
    | none => simp
    | some p =>
      simp only [Option.isSome_some, if_true]
      rw [lookup_updateEntry]

theorem delete_node_result {s : Arena T} (h : WF s) {id : Nat} {n : Node T}
    (hk : lookup s.map id = some n) :
    (delete_node s id).1 = some (walkSpec s id) := by
  have hdfs := tree_walk_dfs_eq_walkSpec h hk
  simp [delete_node, node_exists_true hk, hdfs]

theorem delete_node_counter (s : Arena T) (id : Nat) :
    (delete_node s id).2.atomic_counter = s.atomic_counter := by
  unfold delete_node
  split
  · rfl
  · split
    · rfl
    · rfl

theorem delete_node_keys_sublist {s : Arena T} (h : WF s) {id : Nat} {n : Node T}
    (hk : lookup s.map id = some n) :
    ((delete_node s id).2.map.map (fun e => e.1)).Sublist
      (s.map.map (fun e => e.1)) := by
  have hdfs := tree_walk_dfs_eq_walkSpec h hk
  simp only [delete_node, node_exists_true hk, not_true_eq_false, if_false, hdfs]
  refine (keys_removeAll_sublist _ _).trans ?_
  split
  · split
    · rw [keys_updateEntry]
    · exact List.Sublist.refl _
  · exact List.Sublist.refl _

theorem delete_node_not_exists {s : Arena T} {id : Nat}
    (hk : lookup s.map id = none) : delete_node s id = (none, s) := by
  simp [delete_node, node_exists, hk]

/-- Packaging of `WF` with all conjuncts phrased through `lookup`. -/
theorem WF.of_lookup {s : Arena T}
    (hnd : (s.map.map (fun e => e.1)).Nodup)
    (H1 : ∀ k n, lookup s.map k = some n → n.id = k)
    (H2 : ∀ k n, lookup s.map k = some n → k < s.atomic_counter)
    (H3 : ∀ k n, lookup s.map k = some n → n.children.Nodup)
    (H4 : ∀ k n c, lookup s.map k = some n → c ∈ n.children →
      ∃ m, lookup s.map c = some m ∧ m.parent = some k)
    (H5 : ∀ k n p, lookup s.map k = some n → n.parent = some p →
      p < k ∧ ∃ m, lookup s.map p = some m ∧ k ∈ m.children) : WF s := by
  refine ⟨hnd, ?_, ?_, ?_, ?_, ?_⟩
  · intro e he
    exact H1 e.1 e.2 (mem_lookup hnd he)
  · intro e he
    exact H2 e.1 e.2 (mem_lookup hnd he)
  · intro e he
    exact H3 e.1 e.2 (mem_lookup hnd he)
  · intro e he c hc
    rcases H4 e.1 e.2 c (mem_lookup hnd he) hc with ⟨m, hm, hp⟩
    rw [hm]
    simp [hp]
  · intro e he p hp
    rcases H5 e.1 e.2 p (mem_lookup hnd he) (Option.mem_def.mp hp) with
      ⟨hlt, m, hm, hmem⟩
    refine ⟨hlt, m.children, ?_, hmem⟩
    rw [hm]
    simp

/-- A live node outside the deleted subtree survives `delete_node` with the
same `id`, `parent` and `payload`, keeping every child other than the deleted
root. -/
theorem delete_node_survivor {s : Arena T} (h : WF s) {id x : Nat}
    {n m : Node T} (hk : lookup s.map id = some n)
    (hm : lookup s.map x = some m) (hx : x ∉ walkSpec s id) :
    ∃ m', lookup (delete_node s id).2.map x = some m' ∧
      m'.id = m.id ∧ m'.parent = m.parent ∧ m'.payload = m.payload ∧
      (∀ d ∈ m.children, d ≠ id → d ∈ m'.children) ∧
      (∀ d ∈ m'.children, d ∈ m.children) := by
  rw [delete_node_lookup h hk x]
  simp only [hx, if_false]
  cases hp : n.parent with
  | none => exact ⟨m, hm, rfl, rfl, rfl, fun d hd _ => hd, fun d hd => hd⟩
  | some p =>
    dsimp only
    by_cases hxp : x = p
    · subst hxp
      rw [if_pos rfl, hm]
      refine ⟨_, rfl, rfl, rfl, rfl, ?_, ?_⟩
      · intro d hd hdne
        simp [List.mem_filter, hd, hdne]
      · intro d hd
        simp only [List.mem_filter] at hd
        exact hd.1
    · simp only [hxp, if_false]
      exact ⟨m, hm, rfl, rfl, rfl, fun d hd _ => hd, fun d hd => hd⟩

/-- Every survivor of `delete_node` existed before, was outside the deleted
subtree, kept `id`/`parent`/`payload`, and its children sequence is either
untouched or the old one with the deleted root filtered out; in either case no
child reference to a deleted node remains. -/
theorem delete_node_survivor_inv {s : Arena T} (h : WF s) {id x : Nat}
    {n m' : Node T} (hk : lookup s.map id = some n)
    (hl : lookup (delete_node s id).2.map x = some m') :
    x ∉ walkSpec s id ∧ ∃ m, lookup s.map x = some m ∧
      m'.id = m.id ∧ m'.parent = m.parent ∧ m'.payload = m.payload ∧
      m'.children.Nodup ∧
      ∀ c ∈ m'.children, c ∈ m.children ∧ c ≠ id := by
  rw [delete_node_lookup h hk x] at hl
  by_cases hx : x ∈ walkSpec s id
  · simp [hx] at hl
  · simp only [hx, if_false] at hl
    refine ⟨hx, ?_⟩
    cases hp : n.parent with
    | none =>
      rw [hp] at hl
      refine ⟨m', hl, rfl, rfl, rfl, h.children_nodup hl, ?_⟩
      intro c hc
      refine ⟨hc, ?_⟩
      intro hcid
      subst hcid
      rcases h.child_resolves hl hc with ⟨mi, hmi, hpi⟩
      rw [hk] at hmi
      injection hmi with he
      subst he
      rw [hp] at hpi
      exact Option.noConfusion hpi
    | some p =>
      rw [hp] at hl
      by_cases hxp : x = p
      · simp only [hxp, if_true] at hl
        cases hmp : lookup s.map p with
        | none => rw [hmp] at hl; exact Option.noConfusion hl
        | some m =>
          rw [hmp] at hl
          simp only [Option.map_some'] at hl
          injection hl with he
          subst he
          refine ⟨m, hxp ▸ hmp, rfl, rfl, rfl,
            (h.children_nodup hmp).filter _, ?_⟩
          intro c hc
          simp only [List.mem_filter, decide_eq_true_eq] at hc
          exact hc
      · simp only [hxp, if_false] at hl
        refine ⟨m', hl, rfl, rfl, rfl, h.children_nodup hl, ?_⟩
        intro c hc
        refine ⟨hc, ?_⟩
        intro hcid
        subst hcid
        rcases h.child_resolves hl hc with ⟨mi, hmi, hpi⟩
        rw [hk] at hmi
        injection hmi with he
        subst he
        rw [hp] at hpi
        injection hpi with he2
        exact hxp he2.symm

/-- `delete_node` preserves well-formedness. -/
theorem WF_delete {s : Arena T} (h : WF s) (id : Nat) :
    WF (delete_node s id).2 := by
  cases hk : lookup s.map id with
  | none =>
    rw [delete_node_not_exists hk]
    exact h
  | some n =>
    have hcnt := delete_node_counter s id
    refine WF.of_lookup (List.Nodup.sublist (delete_node_keys_sublist h hk) h.keys_nodup)
      ?_ ?_ ?_ ?_ ?_
    · intro k m' hl
      rcases delete_node_survivor_inv h hk hl with ⟨-, m, hm, hid, -, -, -, -⟩
      rw [hid]
      exact h.id_eq hm
    · intro k m' hl
      rcases delete_node_survivor_inv h hk hl with ⟨-, m, hm, -⟩
      rw [hcnt]
      exact h.lt_counter hm
    · intro k m' hl
      rcases delete_node_survivor_inv h hk hl with ⟨-, m, hm, -, -, -, hnd, -⟩
      exact hnd
    · intro k m' c hl hc
      rcases delete_node_survivor_inv h hk hl with ⟨hkL, m, hm, -, -, -, -, hch⟩
      rcases hch c hc with ⟨hcm, hcne⟩
      rcases h.child_resolves hm hcm with ⟨mc, hmc, hpc⟩
      have hcL : c ∉ walkSpec s id := fun hcL =>
        hcne (child_in_subtree_eq_root h hk hm hkL hcm hcL)
      rcases delete_node_survivor h hk hmc hcL with ⟨mc', hmc', -, hpar', -, -, -⟩
      exact ⟨mc', hmc', hpar' ▸ hpc⟩
    · intro k m' p hl hp
      rcases delete_node_survivor_inv h hk hl with ⟨hkL, m, hm, -, hpar, -, -, -⟩
      rw [hpar] at hp
      rcases h.parent_resolves hm hp with ⟨hlt, mp, hmp, hmem⟩
      have hpL : p ∉ walkSpec s id := parent_notin_subtree h hk hm hkL hp
      rcases delete_node_survivor h hk hmp hpL with ⟨mp', hmp', -, -, -, hkeep, -⟩
      refine ⟨hlt, mp', hmp', hkeep k hmem ?_⟩
      intro hkid
      subst hkid
      exact hkL (walkSpec_self_mem h hk)

end DeleteLemmas

section AddLemmas

theorem mem_keys_lookup_isSome {m : List (Nat × Node T)} {k : Nat}
    (h : k ∈ m.map (fun e => e.1)) : (lookup m k).isSome := by
  induction m with
  | nil => simp at h
  | cons e rest ih =>
    rcases List.mem_cons.mp h with h | h
    · simp [lookup, h.symm]
    · by_cases he : e.1 = k <;> simp [lookup, he, ih h]

theorem add_new_node_panic {s : Arena T} {p : Nat} (d : T)
    (hp : lookup s.map p = none) : add_new_node s d (some p) = (none, s) := by
  simp [add_new_node, node_exists, hp]

theorem add_new_node_lookup_none (s : Arena T) (d : T) (x : Nat) :
    lookup (add_new_node s d none).2.map x =
      if x = s.atomic_counter then
        some { id := s.atomic_counter, parent := none, children := [], payload := d }
      else lookup s.map x := by
  simp only [add_new_node, Option.isSome_none, Bool.false_and, Bool.false_eq_true,
    if_false, generate_uid]
  exact lookup_insertEntry s.map s.atomic_counter _ x

theorem add_new_node_counter_none (s : Arena T) (d : T) :
    (add_new_node s d none).1 = some s.atomic_counter ∧
      (add_new_node s d none).2.atomic_counter = s.atomic_counter + 1 := by
  simp [add_new_node, generate_uid]

theorem add_new_node_lookup_some {s : Arena T} {p : Nat} {np : Node T}
    (hp : lookup s.map p = some np) (hpc : p ≠ s.atomic_counter) (d : T) (x : Nat) :
    lookup (add_new_node s d (some p)).2.map x =
      if x = s.atomic_counter then
        some { id := s.atomic_counter, parent := some p, children := [], payload := d }
      else if x = p then
        some { np with children := np.children ++ [s.atomic_counter] }
      else lookup s.map x := by
  have hex : node_exists s p = true := node_exists_true hp
  simp only [add_new_node, Option.isSome_some, Option.getD_some, hex,
    Bool.not_true, Bool.and_false, Bool.false_eq_true, if_false, generate_uid]
  have hp1 : lookup (insertEntry s.map s.atomic_counter
      { id := s.atomic_counter, parent := some p, children := [], payload := d }) p
      = some np := by
    rw [lookup_insertEntry, if_neg hpc, hp]
  have harc : get_node_arc
      ({ map := insertEntry s.map s.atomic_counter
          { id := s.atomic_counter, parent := some p, children := [], payload := d },
         atomic_counter := s.atomic_counter + 1 } : Arena T) p = some np := by
    simp [get_node_arc, node_exists, hp1]
  split
  · rw [lookup_updateEntry]
    by_cases hxp : x = p
    · subst hxp
      rw [if_pos rfl, hp1, if_neg hpc, if_pos rfl]
      rfl
    · rw [if_neg hxp, lookup_insertEntry]
      by_cases hxc : x = s.atomic_counter
      · rw [if_pos hxc, if_pos hxc]
      · rw [if_neg hxc, if_neg hxc, if_neg hxp]
  · rename_i heq
    rw [harc] at heq
    exact Option.noConfusion heq

theorem add_new_node_counter_some {s : Arena T} {p : Nat} {np : Node T}
    (hp : lookup s.map p = some np) (d : T) :
    (add_new_node s d (some p)).1 = some s.atomic_counter ∧
      (add_new_node s d (some p)).2.atomic_counter = s.atomic_counter + 1 := by
  have hex : node_exists s p = true := node_exists_true hp
  simp only [add_new_node, Option.isSome_some, Option.getD_some, hex,
    Bool.not_true, Bool.and_false, Bool.false_eq_true, if_false, generate_uid]
  constructor
  · trivial
  · split
    · rfl
    · rfl

theorem counter_notin_keys {s : Arena T} (h : WF s) :
    s.atomic_counter ∉ s.map.map (fun e => e.1) := by
  intro hmem
  have := mem_keys_lookup_isSome hmem
  rw [Option.isSome_iff_exists] at this
  rcases this with ⟨n, hn⟩
  exact absurd (h.lt_counter hn) (lt_irrefl _)

theorem add_new_node_keys_none (s : Arena T) (h : WF s) (d : T) :
    (add_new_node s d none).2.map.map (fun e => e.1) =
      s.map.map (fun e => e.1) ++ [s.atomic_counter] := by
  simp only [add_new_node, Option.isSome_none, Bool.false_and, Bool.false_eq_true,
    if_false, generate_uid]
  exact keys_insertEntry_fresh s.map s.atomic_counter _ (counter_notin_keys h)

theorem add_new_node_keys_some {s : Arena T} (h : WF s) {p : Nat} {np : Node T}
    (hp : lookup s.map p = some np) (d : T) :
    (add_new_node s d (some p)).2.map.map (fun e => e.1) =
      s.map.map (fun e => e.1) ++ [s.atomic_counter] := by
  have hex : node_exists s p = true := node_exists_true hp
  simp only [add_new_node, Option.isSome_some, Option.getD_some, hex,
    Bool.not_true, Bool.and_false, Bool.false_eq_true, if_false, generate_uid]
  have hbase := keys_insertEntry_fresh s.map s.atomic_counter
    { id := s.atomic_counter, parent := some p, children := [], payload := d }
    (counter_notin_keys h)
  split
  · dsimp only
    rw [keys_updateEntry]
    exact hbase
  · exact hbase

/-- `add_new_node` preserves well-formedness. -/
theorem WF_add {s : Arena T} (h : WF s) (d : T) (po : Option Nat) :
    WF (add_new_node s d po).2 := by
  cases po with
  | none =>
    have hcnt := (add_new_node_counter_none s d).2
    have hkeys := add_new_node_keys_none s h d
    have hknd : ((add_new_node s d none).2.map.map (fun e => e.1)).Nodup := by
      rw [hkeys]
      simp [List.nodup_append, h.keys_nodup, counter_notin_keys h]
    refine WF.of_lookup hknd ?_ ?_ ?_ ?_ ?_
    · intro k n hk
      rw [add_new_node_lookup_none] at hk
      by_cases hkc : k = s.atomic_counter
      · rw [if_pos hkc] at hk
        injection hk with he
        rw [← he, hkc]
      · rw [if_neg hkc] at hk
        exact h.id_eq hk
    · intro k n hk
      rw [add_new_node_lookup_none] at hk
      rw [hcnt]
      by_cases hkc : k = s.atomic_counter
      · omega
      · rw [if_neg hkc] at hk
        have := h.lt_counter hk
        omega
    · intro k n hk
      rw [add_new_node_lookup_none] at hk
      by_cases hkc : k = s.atomic_counter
      · rw [if_pos hkc] at hk
        injection hk with he
        rw [← he]
        exact List.nodup_nil
      · rw [if_neg hkc] at hk
        exact h.children_nodup hk
    · intro k n c hk hc
      rw [add_new_node_lookup_none] at hk
      rw [add_new_node_lookup_none]
      by_cases hkc : k = s.atomic_counter
      · rw [if_pos hkc] at hk
        injection hk with he
        rw [← he] at hc
        simp at hc
      · rw [if_neg hkc] at hk
        rcases h.child_resolves hk hc with ⟨m, hm, hpm⟩
        have hcne : c ≠ s.atomic_counter := by
          have := h.lt_counter hm
          omega
        rw [if_neg hcne]
        exact ⟨m, hm, hpm⟩
    · intro k n q hk hq
      rw [add_new_node_lookup_none] at hk
      rw [add_new_node_lookup_none]
      by_cases hkc : k = s.atomic_counter
      · rw [if_pos hkc] at hk
        injection hk with he
        rw [← he] at hq
        exact Option.noConfusion hq
      · rw [if_neg hkc] at hk
        rcases h.parent_resolves hk hq with ⟨hlt, m, hm, hmem⟩
        have hqne : q ≠ s.atomic_counter := by
          have := h.lt_counter hm
          omega
        rw [if_neg hqne]
        exact ⟨hlt, m, hm, hmem⟩
  | some p =>
    cases hp : lookup s.map p with
    | none =>
      rw [add_new_node_panic d hp]
      exact h
    | some np =>
      have hplt : p < s.atomic_counter := h.lt_counter hp
      have hpc : p ≠ s.atomic_counter := by omega
      have hcnt := (add_new_node_counter_some hp d).2
      have hform := add_new_node_lookup_some hp hpc d
      have hkeys := add_new_node_keys_some h hp d
      have hknd : ((add_new_node s d (some p)).2.map.map (fun e => e.1)).Nodup := by
        rw [hkeys]
        simp [List.nodup_append, h.keys_nodup, counter_notin_keys h]
      refine WF.of_lookup hknd ?_ ?_ ?_ ?_ ?_
      · intro k n hk
        rw [hform] at hk
        by_cases hkc : k = s.atomic_counter
        · rw [if_pos hkc] at hk
          injection hk with he
          rw [← he, hkc]
        · rw [if_neg hkc] at hk
          by_cases hkp : k = p
          · subst hkp
            rw [if_pos rfl] at hk
            injection hk with he
            rw [← he]
            show np.id = k
            exact h.id_eq hp
          · rw [if_neg hkp] at hk
            exact h.id_eq hk
      · intro k n hk
        rw [hform] at hk
        rw [hcnt]
        by_cases hkc : k = s.atomic_counter
        · omega
        · rw [if_neg hkc] at hk
          by_cases hkp : k = p
          · omega
          · rw [if_neg hkp] at hk
            have := h.lt_counter hk
            omega
      · intro k n hk
        rw [hform] at hk
        by_cases hkc : k = s.atomic_counter
        · rw [if_pos hkc] at hk
          injection hk with he
          rw [← he]
          exact List.nodup_nil
        · rw [if_neg hkc] at hk
          by_cases hkp : k = p
          · subst hkp
            rw [if_pos rfl] at hk
            injection hk with he
            rw [← he]
            show (np.children ++ [s.atomic_counter]).Nodup
            simp only [List.nodup_append, List.nodup_cons, List.nodup_nil,
              List.not_mem_nil, not_false_eq_true, and_true, true_and]
            refine ⟨h.children_nodup hp, ?_⟩
            intro a ha hb
            rcases h.child_resolves hp ha with ⟨m, hm, -⟩
            have := h.lt_counter hm
            simp only [List.mem_singleton] at hb
            omega
          · rw [if_neg hkp] at hk
            exact h.children_nodup hk
      · intro k n c hk hc
        rw [hform] at hk
        rw [hform]
        by_cases hkc : k = s.atomic_counter
        · rw [if_pos hkc] at hk
          injection hk with he
          rw [← he] at hc
          simp at hc
        · rw [if_neg hkc] at hk
          by_cases hkp : k = p
          · subst hkp
            rw [if_pos rfl] at hk
            injection hk with he
            rw [← he] at hc
            have hc2 : c ∈ np.children ++ [s.atomic_counter] := hc
            rw [List.mem_append, List.mem_singleton] at hc2
            rcases hc2 with hc2 | hc2
            · rcases h.child_resolves hp hc2 with ⟨m, hm, hpm⟩
              have hclt := h.lt_counter hm
              have hcp : c ≠ k := by
                have := h.child_gt hp hc2
                omega
              rw [if_neg (by omega : c ≠ s.atomic_counter), if_neg hcp]
              exact ⟨m, hm, hpm⟩
            · subst hc2
              rw [if_pos rfl]
              exact ⟨_, rfl, rfl⟩
          · rw [if_neg hkp] at hk
            rcases h.child_resolves hk hc with ⟨m, hm, hpm⟩
            have hclt := h.lt_counter hm
            rw [if_neg (by omega : c ≠ s.atomic_counter)]
            by_cases hcp : c = p
            · subst hcp
              rw [if_pos rfl]
              refine ⟨_, rfl, ?_⟩
              have hmn : m = np := by
                rw [hm] at hp
                injection hp
              show np.parent = some k
              rw [← hmn]
              exact hpm
            · rw [if_neg hcp]
              exact ⟨m, hm, hpm⟩
      · intro k n q hk hq
        rw [hform] at hk
        rw [hform]
        by_cases hkc : k = s.atomic_counter
        · rw [if_pos hkc] at hk
          injection hk with he
          rw [← he] at hq
          injection hq with he2
          subst he2
          refine ⟨by omega, ?_⟩
          rw [if_neg hpc, if_pos rfl]
          refine ⟨_, rfl, ?_⟩
          show k ∈ np.children ++ [s.atomic_counter]
          rw [hkc]
          simp
        · rw [if_neg hkc] at hk
          by_cases hkp : k = p
          · subst hkp
            rw [if_pos rfl] at hk
            injection hk with he
            rw [← he] at hq
            have hq2 : np.parent = some q := hq
            rcases h.parent_resolves hp hq2 with ⟨hlt, m, hm, hmem⟩
            have hqlt := h.lt_counter hm
            have hqp : q ≠ k := by omega
            rw [if_neg (by omega : q ≠ s.atomic_counter), if_neg hqp]
            exact ⟨hlt, m, hm, hmem⟩
          · rw [if_neg hkp] at hk
            rcases h.parent_resolves hk hq with ⟨hlt, m, hm, hmem⟩
            have hqlt := h.lt_counter hm
            rw [if_neg (by omega : q ≠ s.atomic_counter)]
            by_cases hqp : q = p
            · subst hqp
              rw [if_pos rfl]
              refine ⟨hlt, _, rfl, ?_⟩
              have hmn : m = np := by
                rw [hm] at hp
                injection hp
              show k ∈ np.children ++ [s.atomic_counter]
              rw [List.mem_append, ← hmn]
              exact Or.inl hmem
            · rw [if_neg hqp]
              exact ⟨hlt, m, hm, hmem⟩

end AddLemmas

section ReachableStates

theorem WF_new : WF (Arena.new : Arena T) := by
  refine ⟨by simp [Arena.new], ?_, ?_, ?_, ?_, ?_⟩ <;>
    intro e he <;> simp [Arena.new] at he

theorem Reachable.wf {s : Arena T} (h : Reachable s) : WF s := by
  induction h with
  | base => exact WF_new
  | add s d po _ ih => exact WF_add ih d po
  | del s id _ ih => exact WF_delete ih id

end ReachableStates

section OpTraces

theorem add_new_node_cases (s : Arena T) (d : T) (po : Option Nat) :
    add_new_node s d po = (none, s) ∨
      ((add_new_node s d po).1 = some s.atomic_counter ∧
       (add_new_node s d po).2.atomic_counter = s.atomic_counter + 1) := by
  cases po with
  | none => exact Or.inr (add_new_node_counter_none s d)
  | some p =>
    cases hp : lookup s.map p with
    | none => exact Or.inl (add_new_node_panic d hp)
    | some np => exact Or.inr (add_new_node_counter_some hp d)

theorem run_ops_ids (ops : List (ArenaOp T)) :
    ∀ s : Arena T, (run_ops s ops).2 =
      List.range' s.atomic_counter (run_ops s ops).2.length := by
  induction ops with
  | nil => intro s; rfl
  | cons op ops ih =>
    intro s
    cases op with
    | add d po =>
      have hstep : run_ops s (ArenaOp.add d po :: ops) =
          ((run_ops (add_new_node s d po).2 ops).1,
           (match (add_new_node s d po).1 with
            | some uid => [uid]
            | none => []) ++ (run_ops (add_new_node s d po).2 ops).2) := rfl
      rw [hstep]
      rcases add_new_node_cases s d po with hfail | ⟨hid, hcnt⟩
      · rw [hfail]
        dsimp only
        simp only [List.nil_append]
        exact ih s
      · rw [hid]
        dsimp only
        have hrec := ih (add_new_node s d po).2
        rw [hcnt] at hrec
        simp only [List.singleton_append, List.length_cons]
        rw [List.range'_succ]
        exact congrArg (fun t => s.atomic_counter :: t) hrec
    | del id =>
      show (run_ops (delete_node s id).2 ops).2 = _
      have := ih (delete_node s id).2
      rw [delete_node_counter] at this
      exact this

end OpTraces

section WalkerLemmas

theorem walker_calls_spec {s : Arena T} (l : List Nat)
    (hl : ∀ u ∈ l, ∃ m, lookup s.map u = some m) :
    (l.filterMap (fun uid =>
      (get_node_arc s uid).map (fun node => (uid, node.payload)))).map Prod.fst = l ∧
    ∀ e ∈ l.filterMap (fun uid =>
      (get_node_arc s uid).map (fun node => (uid, node.payload))),
      ∃ m, lookup s.map e.1 = some m ∧ e.2 = m.payload := by
  induction l with
  | nil => simp
  | cons u l ih =>
    rcases hl u (List.mem_cons_self _ _) with ⟨m, hm⟩
    have harc : get_node_arc s u = some m := get_node_arc_eq hm
    rcases ih (fun v hv => hl v (List.mem_cons_of_mem _ hv)) with ⟨ih1, ih2⟩
    rw [List.filterMap_cons]
    constructor
    · simp only [harc, Option.map_some']
      simp [ih1]
    · intro e he
      simp only [harc, Option.map_some', List.mem_cons] at he
      rcases he with he | he
      · subst he
        exact ⟨m, hm, rfl⟩
      · exact ih2 e he

end WalkerLemmas

section FilterLemmas

theorem filter_all_nodes_by_spec (s : Arena T) (f : Nat → T → Bool)
    (hnd : (s.map.map (fun e => e.1)).Nodup) :
    (filter_all_nodes_by s f = none ↔
      ∀ k n, lookup s.map k = some n → f k n.payload = false) ∧
    (∀ l, filter_all_nodes_by s f = some l →
      l.Nodup ∧ ∀ x, x ∈ l ↔ ∃ n, lookup s.map x = some n ∧ f x n.payload = true) := by
  have hmem : ∀ x, x ∈ (s.map.filter (fun e => f e.1 e.2.payload)).map (fun e => e.1) ↔
      ∃ n, lookup s.map x = some n ∧ f x n.payload = true := by
    intro x
    rw [List.mem_map]
    constructor
    · rintro ⟨e, he, rfl⟩
      rw [List.mem_filter] at he
      exact ⟨e.2, mem_lookup hnd he.1, he.2⟩
    · rintro ⟨n, hn, hf⟩
      exact ⟨(x, n), List.mem_filter.mpr ⟨lookup_mem hn, hf⟩, rfl⟩
  have hnd' : ((s.map.filter (fun e => f e.1 e.2.payload)).map (fun e => e.1)).Nodup :=
    List.Nodup.sublist (List.Sublist.map _ (List.filter_sublist _)) hnd
  constructor
  · constructor
    · intro hnone k n hk
      by_contra hf
      rw [Bool.not_eq_false] at hf
      have : k ∈ (s.map.filter (fun e => f e.1 e.2.payload)).map (fun e => e.1) :=
        (hmem k).mpr ⟨n, hk, hf⟩
      rcases List.length_pos_of_mem this with hpos
      simp only [filter_all_nodes_by] at hnone
      rcases hlen : ((s.map.filter (fun e => f e.1 e.2.payload)).map (fun e => e.1)).length
        with _ | len
      · omega
      · rw [hlen] at hnone
        exact Option.noConfusion hnone
    · intro hall
      simp only [filter_all_nodes_by]
      rcases hlen : ((s.map.filter (fun e => f e.1 e.2.payload)).map (fun e => e.1)).length
        with _ | len
      · rw [hlen]
      · exfalso
        have hne : (s.map.filter (fun e => f e.1 e.2.payload)).map (fun e => e.1) ≠ [] := by
          intro hcon
          rw [hcon] at hlen
          exact Nat.noConfusion hlen
        rcases List.exists_mem_of_ne_nil _ hne with ⟨x, hx⟩
        rcases (hmem x).mp hx with ⟨n, hn, hf⟩
        rw [hall x n hn] at hf
        exact Bool.noConfusion hf
  · intro l hl
    simp only [filter_all_nodes_by] at hl
    rcases hlen : ((s.map.filter (fun e => f e.1 e.2.payload)).map (fun e => e.1)).length
      with _ | len
    · rw [hlen] at hl
      exact Option.noConfusion hl
    · rw [hlen] at hl
      injection hl with he
      subst he
      exact ⟨hnd', hmem⟩

end FilterLemmas

section Claims

/-- C1: on a well-formed arena, for every identifier `id` present in the table,
`delete_node id` returns `some L` where `L` lists exactly the identifiers of
the subtree rooted at `id` (each exactly once, in the order `tree_walk_dfs id`
produced before the deletion); afterwards `node_exists` is false for every
identifier in `L`, and a second `delete_node id` returns `none`. -/
theorem C1_delete_node_subtree {s : Arena T} {id : Nat} {n : Node T}
    (h : WF s) (hk : lookup s.map id = some n) :
    ∃ L, (delete_node s id).1 = some L ∧
      tree_walk_dfs s id = some L ∧
      L.Nodup ∧
      (∀ x, x ∈ L ↔ Reaches s id x) ∧
      (∀ x ∈ L, node_exists (delete_node s id).2 x = false) ∧
      (delete_node (delete_node s id).2 id).1 = none := by
  refine ⟨walkSpec s id, delete_node_result h hk, tree_walk_dfs_eq_walkSpec h hk,
    walkSpec_nodup' h hk, fun x => walkSpec_mem_iff h hk, ?_, ?_⟩
  · intro x hx
    simp [node_exists, delete_node_lookup h hk x, hx]
  · have hid : lookup (delete_node s id).2.map id = none := by
      rw [delete_node_lookup h hk id]
      simp [walkSpec_self_mem h hk]
    rw [delete_node_not_exists hid]

theorem C1_witness :
    WF exArena ∧
    (∃ L, (delete_node exArena 0).1 = some L ∧
      tree_walk_dfs exArena 0 = some L ∧
      L.Nodup ∧
      (∀ x, x ∈ L ↔ Reaches exArena 0 x) ∧
      (∀ x ∈ L, node_exists (delete_node exArena 0).2 x = false) ∧
      (delete_node (delete_node exArena 0).2 0).1 = none) :=
  ⟨by unfold WF; decide, C1_delete_node_subtree (by unfold WF; decide) rfl⟩

/-- C2: the claim says a walk whose root exists but which meets a dangling
child reference still returns the visited identifiers, skipping the missing
branch.  The source comment on the `?` operator documents exactly that
("skip to the next item in the stack"), but `?` returns `None` from the whole
method: on a table where node 0 records child 1 and 1 is absent,
`tree_walk_dfs 0` returns `none` instead of `some [0]`. -/
theorem C2_dangling_child_walk_fails :
    node_exists danglingArena 0 = true ∧
    (lookup danglingArena.map 0).map Node.children = some [1] ∧
    lookup danglingArena.map 1 = none ∧
    tree_walk_dfs danglingArena 0 = none := by
  refine ⟨rfl, rfl, rfl, rfl⟩

/-- C3: on a well-formed tree with existing root, the iterative explicit-stack
walk visits exactly the order of the recursive LIFO specification: each node
is recorded, then the subtrees of its children follow with later-in-sequence
children visited before earlier ones (children are pushed in sequence order
and popped last-in first-out). -/
theorem C3_walk_order_lifo {s : Arena T} {root : Nat} {n : Node T}
    (h : WF s) (hk : lookup s.map root = some n) :
    tree_walk_dfs s root = some (walkSpec s root) ∧
    ∀ k m, lookup s.map k = some m →
      walkSpec s k = k :: (m.children.reverse.map (walkSpec s)).flatten :=
  ⟨tree_walk_dfs_eq_walkSpec h hk, fun _ _ hm => walkSpec_unfold h hm⟩

theorem C3_witness :
    (WF exArena ∧ tree_walk_dfs exArena 0 = some [0, 2, 1, 4, 3]) ∧
    (tree_walk_dfs exArena 0 = some (walkSpec exArena 0) ∧
     ∀ k m, lookup exArena.map k = some m →
       walkSpec exArena k = k :: (m.children.reverse.map (walkSpec exArena)).flatten) :=
  ⟨⟨by unfold WF; decide, rfl⟩, C3_walk_order_lifo (by unfold WF; decide) rfl⟩

/-- C5: `add_new_node` with a parent identifier that is not in the table fails
fatally before any mutation: the call yields no identifier and the state at
the failure point is the unchanged input arena (table and counter intact). -/
theorem C5_add_missing_parent_fatal {s : Arena T} {p : Nat} (d : T)
    (hp : node_exists s p = false) :
    add_new_node s d (some p) = (none, s) := by
  cases hl : lookup s.map p with
  | none => exact add_new_node_panic d hl
  | some m =>
    rw [node_exists, hl] at hp
    simp at hp

theorem C5_witness :
    node_exists (Arena.new : Arena Nat) 7 = false ∧
    add_new_node (Arena.new : Arena Nat) 0 (some 7) = (none, Arena.new) :=
  ⟨rfl, C5_add_missing_parent_fatal 0 rfl⟩

/-- C9: every query against an identifier absent from the table reports
absence without failing: `node_exists` is false and `get_parent_of`,
`get_children_of`, `tree_walk_dfs` and `delete_node` all return `none` with
the state unchanged; and `has_parent` is true exactly when the id exists, has
a recorded parent, and that parent still exists in the table. -/
theorem C9_absent_id_queries (s : Arena T) (id : Nat) :
    (lookup s.map id = none →
      node_exists s id = false ∧
      get_parent_of s id = none ∧
      get_children_of s id = none ∧
      tree_walk_dfs s id = none ∧
      delete_node s id = (none, s)) ∧
    (has_parent s id = true ↔
      ∃ n p m, lookup s.map id = some n ∧ n.parent = some p ∧
        lookup s.map p = some m) := by
  constructor
  · intro hnone
    have hex : node_exists s id = false := by simp [node_exists, hnone]
    refine ⟨hex, ?_, ?_, ?_, delete_node_not_exists hnone⟩
    · simp [get_parent_of, hex]
    · simp [get_children_of, hex]
    · simp [tree_walk_dfs, hex]
  · cases hk : lookup s.map id with
    | none =>
      have hex : node_exists s id = false := by simp [node_exists, hk]
      simp [has_parent, hex, hk]
    | some n =>
      cases hp : n.parent with
      | none =>
        simp [has_parent, node_exists_true hk, get_parent_of_eq hk, hp, hk]
      | some p =>
        cases hm : lookup s.map p with
        | none =>
          simp [has_parent, node_exists_true hk, get_parent_of_eq hk, hp,
            node_exists, hm, hk]
        | some m =>
          simp [has_parent, node_exists_true hk, get_parent_of_eq hk, hp,
            node_exists, hm, hk]

theorem C9_witness :
    lookup exArena.map 9 = none ∧
    (node_exists exArena 9 = false ∧
     get_parent_of exArena 9 = none ∧
     get_children_of exArena 9 = none ∧
     tree_walk_dfs exArena 9 = none ∧
     delete_node exArena 9 = (none, exArena)) ∧
    (has_parent exArena 9 = true ↔
      ∃ n p m, lookup exArena.map 9 = some n ∧ n.parent = some p ∧
        lookup exArena.map p = some m) :=
  ⟨rfl, (C9_absent_id_queries exArena 9).1 rfl, (C9_absent_id_queries exArena 9).2⟩

/-- C4: in every arena state reachable from `Arena::new` by `add_new_node` and
`delete_node` calls, whenever `get_parent_of id = some p` and `p` exists, the
children sequence of `p` contains `id` exactly once; no children sequence has
duplicates or the node's own identifier; and the parent relation over live
identifiers is acyclic (no node lies on its own ancestor chain). -/
theorem C4_reachable_invariants {s : Arena T} (h : Reachable s) :
    (∀ id p, get_parent_of s id = some p → node_exists s p = true →
      ∃ m, lookup s.map p = some m ∧ m.children.count id = 1) ∧
    (∀ k n, lookup s.map k = some n → n.children.Nodup ∧ k ∉ n.children) ∧
    (∀ x n p, lookup s.map x = some n → n.parent = some p → ¬ UpChain s p x) := by
  have hw := h.wf
  refine ⟨?_, ?_, ?_⟩
  · intro id p hpar hex
    cases hk : lookup s.map id with
    | none =>
      rw [get_parent_of, node_exists, hk] at hpar
      simp at hpar
    | some n =>
      rw [get_parent_of_eq hk] at hpar
      rcases hw.parent_resolves hk hpar with ⟨-, m, hm, hmem⟩
      exact ⟨m, hm, List.count_eq_one_of_mem (hw.children_nodup hm) hmem⟩
  · intro k n hk
    refine ⟨hw.children_nodup hk, ?_⟩
    intro hself
    have := hw.child_gt hk hself
    omega
  · intro x n p hl hp hup
    have h1 : x ≤ p := hup.le hw
    have h2 : p < x := (hw.parent_resolves hl hp).1
    omega

theorem C4_witness :
    Reachable exArena ∧
    ((∀ id p, get_parent_of exArena id = some p → node_exists exArena p = true →
        ∃ m, lookup exArena.map p = some m ∧ m.children.count id = 1) ∧
     (∀ k n, lookup exArena.map k = some n → n.children.Nodup ∧ k ∉ n.children) ∧
     (∀ x n p, lookup exArena.map x = some n → n.parent = some p →
        ¬ UpChain exArena p x)) := by
  have hr : Reachable exArena :=
    Reachable.add _ 14 (some 1)
      (Reachable.add _ 13 (some 1)
        (Reachable.add _ 12 (some 0)
          (Reachable.add _ 11 (some 0)
            (Reachable.add _ 10 none Reachable.base))))
  exact ⟨hr, C4_reachable_invariants hr⟩

/-- C6: starting from `Arena::new`, the identifier generator starts at 0 and
each successful `add_new_node` returns the next integer: across any sequence
of add and delete calls the returned identifiers are exactly `0, 1, ..., N-1`
in order (hence pairwise distinct), so no identifier is ever reissued after
the node it named is deleted. -/
theorem C6_ids_contiguous_from_zero (ops : List (ArenaOp T)) :
    (run_ops (Arena.new : Arena T) ops).2 =
      List.range (run_ops (Arena.new : Arena T) ops).2.length ∧
    (run_ops (Arena.new : Arena T) ops).2.Nodup := by
  have h := run_ops_ids ops (Arena.new : Arena T)
  have hc : (Arena.new : Arena T).atomic_counter = 0 := rfl
  rw [hc] at h
  constructor
  · conv_lhs => rw [h]
    rw [List.range_eq_range']
  · rw [h]
    exact List.nodup_range' _ _

theorem C6_witness :
    (run_ops (Arena.new : Arena Nat)
      [ArenaOp.add 10 none, ArenaOp.add 11 (some 0), ArenaOp.del 0,
       ArenaOp.add 12 none]).2 = [0, 1, 2] ∧
    ((run_ops (Arena.new : Arena Nat)
        [ArenaOp.add 10 none, ArenaOp.add 11 (some 0), ArenaOp.del 0,
         ArenaOp.add 12 none]).2 =
      List.range (run_ops (Arena.new : Arena Nat)
        [ArenaOp.add 10 none, ArenaOp.add 11 (some 0), ArenaOp.del 0,
         ArenaOp.add 12 none]).2.length ∧
     (run_ops (Arena.new : Arena Nat)
        [ArenaOp.add 10 none, ArenaOp.add 11 (some 0), ArenaOp.del 0,
         ArenaOp.add 12 none]).2.Nodup) :=
  ⟨rfl, C6_ids_contiguous_from_zero _⟩

/-- C7: `filter_all_nodes_by` returns `none` exactly when no live node's
payload satisfies the predicate, and otherwise `some` of exactly the matching
identifiers, each once; the predicate is applied to each live node's id and a
copy of its payload. -/
theorem C7_filter_semantics (s : Arena T) (f : Nat → T → Bool)
    (hnd : (s.map.map (fun e => e.1)).Nodup) :
    (filter_all_nodes_by s f = none ↔
      ∀ k n, lookup s.map k = some n → f k n.payload = false) ∧
    (∀ l, filter_all_nodes_by s f = some l →
      l.Nodup ∧ ∀ x, x ∈ l ↔ ∃ n, lookup s.map x = some n ∧ f x n.payload = true) :=
  filter_all_nodes_by_spec s f hnd

theorem C7_witness :
    (arena3.map.map (fun e => e.1)).Nodup ∧
    filter_all_nodes_by arena3 (fun _ v => v == 2) = some [1] ∧
    filter_all_nodes_by arena3 (fun _ v => v == 99) = none ∧
    ((filter_all_nodes_by arena3 (fun _ v => v == 2) = none ↔
       ∀ k n, lookup arena3.map k = some n → (n.payload == 2) = false) ∧
     (∀ l, filter_all_nodes_by arena3 (fun _ v => v == 2) = some l →
       l.Nodup ∧ ∀ x, x ∈ l ↔
         ∃ n, lookup arena3.map x = some n ∧ (n.payload == 2) = true)) :=
  ⟨by decide, rfl, rfl, C7_filter_semantics arena3 (fun _ v => v == 2) (by decide)⟩

/-- C8: the computation run by the thread `tree_walk_parallel` spawns is
equivalent to the synchronous walk on the same arena: its result component is
exactly `tree_walk_dfs`, and the walker is invoked once per visited node, in
that DFS order, with the node's identifier and a copy of its payload. -/
theorem C8_parallel_walk_equiv {s : Arena T} {k : Nat} {n : Node T}
    (h : WF s) (hk : lookup s.map k = some n) :
    (tree_walk_parallel_body s k).1 = tree_walk_dfs s k ∧
    ∃ L, tree_walk_dfs s k = some L ∧
      (tree_walk_parallel_body s k).2.map Prod.fst = L ∧
      ∀ e ∈ (tree_walk_parallel_body s k).2,
        ∃ m, lookup s.map e.1 = some m ∧ e.2 = m.payload := by
  have hdfs := tree_walk_dfs_eq_walkSpec h hk
  have hbody : tree_walk_parallel_body s k =
      (some (walkSpec s k), (walkSpec s k).filterMap (fun uid =>
        (get_node_arc s uid).map (fun node => (uid, node.payload)))) := by
    simp only [tree_walk_parallel_body, hdfs]
  have hw := walker_calls_spec (s := s) (walkSpec s k)
    (fun u hu => walkSpec_mem_live h hk hu)
  refine ⟨by rw [hbody, hdfs], walkSpec s k, hdfs, ?_, ?_⟩
  · rw [hbody]
    exact hw.1
  · rw [hbody]
    exact hw.2

theorem C8_witness :
    WF exArena ∧
    ((tree_walk_parallel_body exArena 0).1 = tree_walk_dfs exArena 0 ∧
     ∃ L, tree_walk_dfs exArena 0 = some L ∧
       (tree_walk_parallel_body exArena 0).2.map Prod.fst = L ∧
       ∀ e ∈ (tree_walk_parallel_body exArena 0).2,
         ∃ m, lookup exArena.map e.1 = some m ∧ e.2 = m.payload) :=
  ⟨by unfold WF; decide, C8_parallel_walk_equiv (by unfold WF; decide) rfl⟩

/-- C10: on a well-formed arena, `delete_node id` changes nothing outside the
deleted subtree except the parent of `id`: the counter is unchanged, every
live node outside the subtree that is not the parent keeps its exact record,
and the parent's only change is that `id` is erased from its children
sequence (its id, parent and payload fields are untouched). -/
theorem C10_delete_frame {s : Arena T} {id : Nat} {n : Node T}
    (h : WF s) (hk : lookup s.map id = some n) :
    (delete_node s id).2.atomic_counter = s.atomic_counter ∧
    (∀ x m, lookup s.map x = some m → ¬ Reaches s id x →
      get_parent_of s id ≠ some x →
      lookup (delete_node s id).2.map x = some m) ∧
    (∀ p, get_parent_of s id = some p →
      ∃ m, lookup s.map p = some m ∧
        lookup (delete_node s id).2.map p =
          some { m with children := m.children.erase id }) := by
  refine ⟨delete_node_counter s id, ?_, ?_⟩
  · intro x m hm hreach hpar
    rw [delete_node_lookup h hk x]
    have hxL : x ∉ walkSpec s id := fun hx => hreach ((walkSpec_mem_iff h hk).mp hx)
    rw [if_neg hxL]
    cases hp : n.parent with
    | none => exact hm
    | some p =>
      dsimp only
      rw [get_parent_of_eq hk, hp] at hpar
      have hxp : x ≠ p := fun hxe => hpar (by rw [hxe])
      rw [if_neg hxp]
      exact hm
  · intro p hpar
    rw [get_parent_of_eq hk] at hpar
    rcases h.parent_resolves hk hpar with ⟨-, m, hm, -⟩
    refine ⟨m, hm, ?_⟩
    rw [delete_node_lookup h hk p]
    rw [if_neg (root_parent_notin_subtree h hk hpar), hpar]
    dsimp only
    rw [if_pos rfl, hm]
    simp only [Option.map_some']
    have herase : m.children.filter (fun child_id => child_id ≠ id) =
        m.children.erase id := by
      rw [List.Nodup.erase_eq_filter (h.children_nodup hm)]
      apply List.filter_congr
      intro x _
      by_cases hxe : x = id
      · subst hxe
        simp
      · simp [hxe]
    rw [herase]

theorem C10_witness :
    WF exArena ∧
    ((delete_node exArena 1).2.atomic_counter = exArena.atomic_counter ∧
     (∀ x m, lookup exArena.map x = some m → ¬ Reaches exArena 1 x →
       get_parent_of exArena 1 ≠ some x →
       lookup (delete_node exArena 1).2.map x = some m) ∧
     (∀ p, get_parent_of exArena 1 = some p →
       ∃ m, lookup exArena.map p = some m ∧
         lookup (delete_node exArena 1).2.map p =
           some { m with children := m.children.erase 1 })) :=
  ⟨by unfold WF; decide, C10_delete_frame (by unfold WF; decide) rfl⟩

end Claims

end TreeArena
